import Mathlib

/-!
# Verification of the AutoTable width-allocation engine

A shallow embedding of `src/gitoverit/output/table.py`: the grid model,
the width measurer, the chrome calculator, the fit-or-allocate decision,
the two greedy allocators (`_optimize_greedy_chars`, `_optimize_greedy_cells`)
and the single-row renderer (`_render_row`), together with theorems checking
the natural-language specification against them.

Modelling conventions:
* a cell is its plain textual content (a `String`); Rich's `cell_len` is
  modelled by `cellLen` as the character count, which agrees with the display
  width for the single-cell-wide characters the engine manipulates;
* Python integers are `Int` where values can go negative (budgets, available
  widths, priorities) and `Nat` where the source only ever holds nonnegative
  values (column widths, paddings, counts);
* `box_style` is abstracted to whether borders are enabled (the layout maths
  only tests its truthiness); the renderer model carries the border glyphs
  explicitly;
* Python's `float` ratio `benefit / cost` in `_optimize_greedy_cells` is
  modelled as the exact rational `benefit / cost : ℚ`; IEEE double division
  is correctly rounded, so the float comparison agrees with the rational one
  for all magnitudes the code handles (products below 2^53).
-/

namespace Gitoverit

/-- Display width of a cell's plain text: models Rich's `cell_len`
(character count; identical to display width for single-width characters). -/
def cellLen (s : String) : Nat := s.length

/-- Column definition `AutoColumn` from table.py: header text and integer priority.  The opaque
`style` field is never read by the layout algorithm and is omitted. -/
structure AutoColumn where
  header : String
  priority : Int
deriving DecidableEq, Repr

/-- Width mode: `WidthMode = Literal["fill", "pack"] | int` from table.py. -/
inductive WidthMode where
  | fill
  | pack
  | fixed (w : Int)
deriving DecidableEq, Repr

/-- Table `AutoTable` from table.py: ordered columns, ordered rows of cells, and the
render configuration.  `boxEnabled` is the truthiness of `box_style`. -/
structure AutoTable where
  columns : List AutoColumn
  rows : List (List String)
  widthMode : WidthMode
  boxEnabled : Bool
  padding : Nat
  minColWidth : Nat
  minimizeChars : Bool
deriving DecidableEq, Repr

/-- A dummy column used only as the default of out-of-range list accesses;
every access in the development is in range. -/
def dummyColumn : AutoColumn := ⟨"", 1⟩

/-- Function `_get_cell_widths`: the widths of all cells in a column, header first;
rows that do not reach the column (`col_idx >= len(row)`) are skipped. -/
def getCellWidths (t : AutoTable) (colIdx : Nat) : List Nat :=
  cellLen (t.columns.getD colIdx dummyColumn).header ::
    t.rows.filterMap (fun row => (row.get? colIdx).map cellLen)

/-- Function `_measure_columns`, first component: per column, the maximum of the header
width and every cell width (the source computes the same maximum with two
loops, starting from 0, taking `max` with the header and then with each cell
of each row that reaches the column). -/
def idealWidths (t : AutoTable) : List Nat :=
  (List.range t.columns.length).map (fun i => (getCellWidths t i).foldl max 0)

/-- Function `_measure_columns`, second component: `max(min_col_width, header length)`
per column. -/
def minWidths (t : AutoTable) : List Nat :=
  t.columns.map (fun c => max t.minColWidth (cellLen c.header))

/-- Function `_calculate_chrome_width`: borders (`2 + (num_cols - 1)` when enabled)
plus `num_cols * padding`. -/
def chromeWidth (t : AutoTable) (numCols : Nat) : Int :=
  (if t.boxEnabled then 2 + ((numCols : Int) - 1) else 0)
    + (numCols : Int) * (t.padding : Int)

/-- The precomputed `all_cell_widths` of the two greedy optimizers. -/
def allCellWidths (t : AutoTable) : List (List Nat) :=
  (List.range t.columns.length).map (getCellWidths t)

/-- The precomputed `priorities` list of the two greedy optimizers. -/
def priorities (t : AutoTable) : List Int :=
  t.columns.map (fun c => c.priority)

/-! ## The best-column selection loops

Both optimizers scan the columns in index order keeping the best candidate
seen so far, replacing it only on a strict improvement, so ties are broken
by the lowest column index.  `selectLoop` is that scan, generic in the
ordered key a candidate column is scored with (`Int` benefit for the chars
objective, lexicographic (ratio, benefit) for the cells objective); `none`
is a column that offers no candidate (skipped by `continue` in the source).
-/

/-- The candidate-selection scan of both optimizers: fold over the column
indices, keeping `(best_col, best_key)` and replacing it exactly when the
scanned column has a key and that key strictly beats the current one. -/
def selectLoop {K : Type} [LinearOrder K] (key : Nat → Option K)
    (l : List Nat) (acc : Option Nat × K) : Option Nat × K :=
  l.foldl
    (fun best i =>
      match key i with
      | none => best
      | some k => if best.2 < k then (some i, k) else best)
    acc

/-- Predicate `keyLeB key k j`: column `j` offers no candidate, or its key is `≤ k`. -/
def keyLeB {K : Type} [LinearOrder K] (key : Nat → Option K) (k : K) (j : Nat) : Bool :=
  match key j with
  | none => true
  | some k' => decide (k' ≤ k)

/-- Modelled from the spec's words: column `i` is "the single best column"
of the list `l` when it offers a key that strictly beats the baseline `base`
and no column of `l` offers a strictly larger key. -/
def bestPred {K : Type} [LinearOrder K] (key : Nat → Option K) (base : K)
    (l : List Nat) (i : Nat) : Bool :=
  match key i with
  | none => false
  | some k => decide (base < k) && l.all (keyLeB key k)

/-- Modelled from the spec's words: the lowest-index column attaining the
highest key, provided that key beats the baseline. -/
def selectFirstBest {K : Type} [LinearOrder K] (key : Nat → Option K) (base : K)
    (l : List Nat) : Option Nat :=
  l.find? (bestPred key base l)

/-! ## `_optimize_greedy_chars` -/

/-- The benefit the chars objective assigns to column `i`:
`(count of cells still abbreviated) * priority`. -/
def benefitAt (allCW : List (List Nat)) (prios : List Int) (widths : List Nat)
    (i : Nat) : Int :=
  ((allCW.getD i []).countP (fun w => widths.getD i 0 < w) : Int) * prios.getD i 0

/-- One pass of the chars objective's inner `for col_idx ...` loop:
`best_col = -1, best_benefit = 0`, replaced whenever `benefit > best_benefit`.
(`best_col ≠ -1` implies `best_benefit > 0`, so the source's
`best_col == -1 or best_benefit == 0` stop test is `best_col == -1`.) -/
def pickBestChars (allCW : List (List Nat)) (prios : List Int)
    (widths : List Nat) : Option Nat × Int :=
  selectLoop (fun i => some (benefitAt allCW prios widths i))
    (List.range allCW.length) (none, 0)

/-- The `for _ in range(budget)` loop of `_optimize_greedy_chars`: while fuel
remains, find the best column; stop if there is none, else give it one unit. -/
def greedyCharsLoop (allCW : List (List Nat)) (prios : List Int) :
    Nat → List Nat → List Nat
  | 0, widths => widths
  | fuel + 1, widths =>
    match (pickBestChars allCW prios widths).1 with
    | none => widths
    | some c => greedyCharsLoop allCW prios fuel (widths.set c (widths.getD c 0 + 1))

/-- Function `_optimize_greedy_chars`: start from the minimum widths; if
`budget = available - sum(min_widths) ≤ 0` return them unchanged, else run
the greedy +1 loop for `budget` steps. -/
def optimizeGreedyChars (t : AutoTable) (available : Int) (minW : List Nat) :
    List Nat :=
  let budget : Int := available - (minW.sum : Int)
  if budget ≤ 0 then minW
  else greedyCharsLoop (allCellWidths t) (priorities t) budget.toNat minW

/-! ## `_optimize_greedy_cells` -/

/-- The next breakpoint of column `i`: the smallest cell width exceeding the
column's current width (`none` when every cell already fits). -/
def nextBreakpoint (allCW : List (List Nat)) (widths : List Nat) (i : Nat) :
    Option Nat :=
  ((allCW.getD i []).filter (fun w => widths.getD i 0 < w)).min?

/-- The next breakpoint cost of column `i`: `next_breakpoint - current`
(0 when no cell is abbreviated; only read when one is). -/
def nextCost (allCW : List (List Nat)) (widths : List Nat) (i : Nat) : Int :=
  match nextBreakpoint allCW widths i with
  | none => 0
  | some nb => (nb : Int) - (widths.getD i 0 : Int)

/-- The candidate key of column `i` for the cells objective: `none` when all
its cells fit or the jump cost exceeds the budget (`continue` in the source);
otherwise the pair (rational ratio `benefit / cost`, benefit), compared
lexicographically — exactly the source's
`ratio > best_ratio or (ratio == best_ratio and benefit > best_benefit)`.
The ratio is written `Rat.divInt benefit cost`, which is the rational number
`benefit / cost` (`Rat.divInt_eq_div`). -/
def cellsKey (allCW : List (List Nat)) (prios : List Int) (widths : List Nat)
    (budget : Int) (i : Nat) : Option (Lex (ℚ × Int)) :=
  let cw := allCW.getD i []
  let current := widths.getD i 0
  match nextBreakpoint allCW widths i with
  | none => none
  | some nb =>
    let cost : Int := (nb : Int) - (current : Int)
    if budget < cost then none
    else
      let rawBenefit : Nat := cw.countP (fun w => w = nb)
      let benefit : Int := (rawBenefit : Int) * prios.getD i 0
      some (toLex (if 0 < cost then Rat.divInt benefit cost else 0, benefit))

/-- The fallback distribution of `_optimize_greedy_cells`:
`for i in range(budget): widths[abbreviated_cols[i % len(abbreviated_cols)]] += 1`. -/
def rrOverCols (abbr : List Nat) : List Nat → Nat → Nat → List Nat
  | widths, _, 0 => widths
  | widths, i, k + 1 =>
    let c := abbr.getD (i % abbr.length) 0
    rrOverCols abbr (widths.set c (widths.getD c 0 + 1)) (i + 1) k

/-- The `while budget > 0` loop of `_optimize_greedy_cells`.  Each selected
jump costs at least one unit, so `budget.toNat` steps of fuel are enough for
the loop to reach `budget ≤ 0` or the no-candidate fallback; the fuel-0 case
coincides with the `budget ≤ 0` exit. -/
def greedyCellsLoop (allCW : List (List Nat)) (prios : List Int) :
    Nat → List Nat → Int → List Nat
  | 0, widths, _ => widths
  | fuel + 1, widths, budget =>
    if budget ≤ 0 then widths
    else
      match (selectLoop (cellsKey allCW prios widths budget)
          (List.range allCW.length) (none, toLex (0, 0))).1 with
      | none =>
        let abbrCols := (List.range allCW.length).filter
          (fun i => (allCW.getD i []).any (fun w => widths.getD i 0 < w))
        if abbrCols.isEmpty then widths
        else rrOverCols abbrCols widths 0 budget.toNat
      | some c =>
        let cost := nextCost allCW widths c
        greedyCellsLoop allCW prios fuel
          (widths.set c (widths.getD c 0 + cost.toNat)) (budget - cost)

/-- Function `_optimize_greedy_cells`: start from the minimum widths; if
`budget ≤ 0` return them unchanged, else run the breakpoint-jumping loop. -/
def optimizeGreedyCells (t : AutoTable) (available : Int) (minW : List Nat) :
    List Nat :=
  let budget : Int := available - (minW.sum : Int)
  if budget ≤ 0 then minW
  else greedyCellsLoop (allCellWidths t) (priorities t) budget.toNat minW budget

/-! ## `_calculate_layout` -/

/-- The round-robin slack distribution of the fit path:
`for i in range(extra): widths[i % num_cols] += 1`, threading the running
index `i`. -/
def roundRobinFrom : List Nat → Nat → Nat → List Nat
  | widths, _, 0 => widths
  | widths, i, k + 1 =>
    let idx := i % widths.length
    roundRobinFrom (widths.set idx (widths.getD idx 0 + 1)) (i + 1) k

/-- The `available_total` of `_calculate_layout`: the fixed width in fixed mode,
the console width otherwise. -/
def availableTotal (t : AutoTable) (consoleWidth : Int) : Int :=
  match t.widthMode with
  | .fixed w => w
  | _ => consoleWidth

/-- The quantity `available_for_content = available_total - chrome`. -/
def availableForContent (t : AutoTable) (consoleWidth : Int) : Int :=
  availableTotal t consoleWidth - chromeWidth t t.columns.length

/-- The tail of `_calculate_layout` once `available_for_content` is fixed:
fit path (ideal widths, plus round-robin slack in fill mode) when the ideal
content fits, greedy allocation otherwise. -/
def fitOrAllocate (t : AutoTable) (afc : Int) : List Nat :=
  let ideal := idealWidths t
  if (ideal.sum : Int) ≤ afc then
    if t.widthMode = .fill ∧ (ideal.sum : Int) < afc then
      roundRobinFrom ideal 0 (afc - (ideal.sum : Int)).toNat
    else ideal
  else
    if t.minimizeChars then optimizeGreedyChars t afc (minWidths t)
    else optimizeGreedyCells t afc (minWidths t)

/-- Function `_calculate_layout`: no columns renders nothing; pack mode returns the
ideal widths outright when the whole ideal table (content plus chrome) fits
the console; otherwise the fit-or-allocate decision runs on
`available_for_content`. -/
def calculateLayout (t : AutoTable) (consoleWidth : Int) : List Nat :=
  if t.columns.length = 0 then []
  else
    match t.widthMode with
    | .pack =>
      if ((idealWidths t).sum : Int) + chromeWidth t t.columns.length ≤ consoleWidth
      then idealWidths t
      else fitOrAllocate t (consoleWidth - chromeWidth t t.columns.length)
    | _ => fitOrAllocate t (availableForContent t consoleWidth)

/-! ## Spec-modelled allocators

The specification describes each allocator step as "the column with the
single highest benefit (ties broken by lowest column index)" resp. "the
column with the highest benefit / cost ratio (ties broken by higher absolute
benefit, then lowest index)".  The following definitions follow those words:
the selection is the *first index attaining the maximum* (`selectFirstBest`),
not the source's running-best scan, and the cells objective "jumps that
column's width directly to the breakpoint".  The refinement theorems below
prove them equal to the source-translated allocators. -/

/-- Modelled from the spec: the chars-objective loop, selecting the
lowest-index column of maximal positive benefit and giving it one unit. -/
def greedyCharsSpecLoop (allCW : List (List Nat)) (prios : List Int) :
    Nat → List Nat → List Nat
  | 0, widths => widths
  | fuel + 1, widths =>
    match selectFirstBest (fun i => some (benefitAt allCW prios widths i)) 0
        (List.range allCW.length) with
    | none => widths
    | some c =>
      greedyCharsSpecLoop allCW prios fuel (widths.set c (widths.getD c 0 + 1))

/-- Modelled from the spec: `_optimize_greedy_chars` with the spec-worded
selection. -/
def optimizeGreedyCharsSpec (t : AutoTable) (available : Int) (minW : List Nat) :
    List Nat :=
  let budget : Int := available - (minW.sum : Int)
  if budget ≤ 0 then minW
  else greedyCharsSpecLoop (allCellWidths t) (priorities t) budget.toNat minW

/-- Modelled from the spec: the cells-objective loop, selecting the
lowest-index affordable column of lexicographically maximal (ratio, benefit)
and jumping its width directly to its breakpoint. -/
def greedyCellsSpecLoop (allCW : List (List Nat)) (prios : List Int) :
    Nat → List Nat → Int → List Nat
  | 0, widths, _ => widths
  | fuel + 1, widths, budget =>
    if budget ≤ 0 then widths
    else
      match selectFirstBest (cellsKey allCW prios widths budget) (toLex (0, 0))
          (List.range allCW.length) with
      | none =>
        let abbrCols := (List.range allCW.length).filter
          (fun i => (allCW.getD i []).any (fun w => widths.getD i 0 < w))
        if abbrCols.isEmpty then widths
        else rrOverCols abbrCols widths 0 budget.toNat
      | some c =>
        match nextBreakpoint allCW widths c with
        | none => widths   -- unreachable: a selected column has a breakpoint
        | some nb =>
          greedyCellsSpecLoop allCW prios fuel (widths.set c nb)
            (budget - ((nb : Int) - (widths.getD c 0 : Int)))

/-- Modelled from the spec: `_optimize_greedy_cells` with the spec-worded
selection and breakpoint jump. -/
def optimizeGreedyCellsSpec (t : AutoTable) (available : Int) (minW : List Nat) :
    List Nat :=
  let budget : Int := available - (minW.sum : Int)
  if budget ≤ 0 then minW
  else greedyCellsSpecLoop (allCellWidths t) (priorities t) budget.toNat minW budget

/-! ## The renderer (`_truncate_cell`, `_render_row`) -/

/-- The border glyphs `_render_row` reads off `box_style`. -/
structure BoxChars where
  headLeft : String
  midLeft : String
  headVertical : String
  midVertical : String
  headRight : String
  midRight : String
deriving DecidableEq, Repr

/-- Function `_truncate_cell`, with Rich's `Text.truncate(width, overflow="ellipsis")`
modelled as keeping `width - 1` characters and appending the ellipsis glyph
(the empty string at width 0), so the displayed width equals `width`. -/
def truncateCell (s : String) (width : Nat) : String :=
  if cellLen s ≤ width then s
  else if width = 0 then ""
  else (String.mk (s.toList.take (width - 1))).push '…'

/-- A run of `n` spaces. -/
def spaces (n : Nat) : String := String.mk (List.replicate n ' ')

/-- The segments `_render_row` yields for the cell at position `i`:
left padding, the (truncated) content, fill-up padding when positive, right
padding, and — when borders are on — the column separator, or the right
border for the last column position (`i == len(widths) - 1`).  A styled
cell's rendered segments are collapsed to their plain text. -/
def renderCellSegments (t : AutoTable) (bx : Option BoxChars) (numWidths : Nat)
    (isHeader : Bool) (i : Nat) (cell : String) (width : Nat) : List String :=
  let padLeft := t.padding / 2
  let padRight := t.padding - padLeft
  let text := truncateCell cell width
  let contentWidth := cellLen text
  [spaces padLeft, text]
    ++ (if 0 < width - contentWidth then [spaces (width - contentWidth)] else [])
    ++ [spaces padRight]
    ++ (match bx with
        | none => []
        | some b =>
          if i < numWidths - 1 then
            [if isHeader then b.headVertical else b.midVertical]
          else
            [if isHeader then b.headRight else b.midRight])

/-- The `for i, (cell, width) in enumerate(zip(cells, widths))` loop of
`_render_row`, threading the running index. -/
def renderCells (t : AutoTable) (bx : Option BoxChars) (numWidths : Nat)
    (isHeader : Bool) : Nat → List (String × Nat) → List String
  | _, [] => []
  | i, (cell, width) :: rest =>
    renderCellSegments t bx numWidths isHeader i cell width
      ++ renderCells t bx numWidths isHeader (i + 1) rest

/-- Function `_render_row`: left border (when boxed), the zipped cell/width segments,
and the final newline segment. -/
def renderRow (t : AutoTable) (bx : Option BoxChars) (cells : List String)
    (widths : List Nat) (isHeader : Bool) : List String :=
  (match bx with
   | none => []
   | some b => [if isHeader then b.headLeft else b.midLeft])
    ++ renderCells t bx widths.length isHeader 0 (cells.zip widths)
    ++ ["\n"]

/-! ## Randomness model

table.py imports `random`, but the only consumer (`random.choice` /
`random.randint` in `_optimize_widths`, the legacy local-search optimizer)
is never reached from `_calculate_layout`: the layout path calls only
`_measure_columns`, `_calculate_chrome_width` and the two greedy optimizers,
none of which mention `random`.  Threading the random state through the
layout path therefore returns it unchanged alongside a result that does not
depend on it. -/

/-- The state of Python's global `random` module, abstracted. -/
def RandomState : Type := Nat

/-- Function `_calculate_layout` with the global random state threaded through: every
function on the layout path is random-free, so the state passes through
untouched and the widths are computed exactly as by `calculateLayout`. -/
def calculateLayoutWithRandom (t : AutoTable) (consoleWidth : Int)
    (rng : RandomState) : List Nat × RandomState :=
  (calculateLayout t consoleWidth, rng)

/-! ## Concrete tables used by the examples, witnesses and counterexamples -/

/-- A ten-character cell. -/
def s10 : String := "aaaaaaaaaa"

/-- A six-character cell. -/
def s6 : String := "abcdef"

/-- A hundred-character cell. -/
def s100 : String := String.mk (List.replicate 100 'z')

/-- The spec §8 chars-objective example: column A priority 10, column B
priority 1, five cells of length 10 each, minimum width 4 per column. -/
def tChars : AutoTable :=
  ⟨[⟨"A", 10⟩, ⟨"B", 1⟩], List.replicate 5 [s10, s10], .fill, true, 2, 4, true⟩

/-- Two columns with identical cell-length distributions `[1, 6, 100]`;
the lower-priority column B sits at the lower index. -/
def tCells9 : AutoTable :=
  ⟨[⟨"B", 1⟩, ⟨"A", 2⟩], [[s6, s6], [s100, s100]], .fill, true, 2, 4, false⟩

/-- The spec §8 fit/slack example: ideal widths [2, 10], fill mode; at
console width 20 the chrome is 7, so `available_for_content = 13`. -/
def tFit : AutoTable :=
  ⟨[⟨"ID", 1⟩, ⟨"Value", 1⟩], [["1", s10], ["2", s10], ["3", s10]], .fill, true, 2, 4, false⟩

/-- A table with no columns (renders nothing). -/
def tEmpty : AutoTable := ⟨[], [], .fill, true, 2, 4, false⟩

/-- One column, header "ID", no rows, fixed total width 7: the chrome is 4,
so `available_for_content = 3 < 4 = min width`, yet the ideal width 2 fits. -/
def tMin5 : AutoTable := ⟨[⟨"ID", 1⟩], [], .fixed 7, true, 2, 4, false⟩

/-- Like `tMin5` but with a ten-character cell, so the ideal width does not
fit either and the allocator degenerate path runs. -/
def tMin5b : AutoTable := ⟨[⟨"ID", 1⟩], [[s10]], .fixed 7, true, 2, 4, false⟩

/-- One column, header "ID", no rows, pack mode: the packed ideal width 2 is
below `min_col_width = 4`. -/
def tPack7 : AutoTable := ⟨[⟨"ID", 1⟩], [], .pack, true, 2, 4, false⟩

/-- Three columns for the short-row rendering claims. -/
def tShort8 : AutoTable :=
  ⟨[⟨"H1", 1⟩, ⟨"H2", 1⟩, ⟨"H3", 1⟩], [["a", "b"]], .fill, true, 2, 4, false⟩

/-- Border glyphs with a distinguishable right border. -/
def bx8 : BoxChars := ⟨"HL", "L", "HV", "S", "HR", "R"⟩

/-- Like `bx8` but with different right-border glyphs. -/
def bx8' : BoxChars := ⟨"HL", "L", "HV", "S", "XX", "Y"⟩

/-! ## List helpers -/

lemma getD_set_self : ∀ (l : List Nat) (i v : Nat), i < l.length →
    (l.set i v).getD i 0 = v
  | [], i, _, h => absurd h (by simp)
  | _ :: _, 0, _, _ => rfl
  | _ :: l, i + 1, v, h => getD_set_self l i v (Nat.lt_of_succ_lt_succ h)

lemma getD_set_ne : ∀ (l : List Nat) (i j v : Nat), i ≠ j →
    (l.set i v).getD j 0 = l.getD j 0
  | [], _, _, _, _ => rfl
  | _ :: _, 0, 0, _, h => absurd rfl h
  | _ :: _, 0, _ + 1, _, _ => rfl
  | _ :: _, _ + 1, 0, _, _ => rfl
  | _ :: l, i + 1, j + 1, v, h =>
    getD_set_ne l i j v (fun hij => h (by omega))

lemma sum_set_add : ∀ (l : List Nat) (i k : Nat), i < l.length →
    (l.set i (l.getD i 0 + k)).sum = l.sum + k
  | [], i, _, h => absurd h (by simp)
  | a :: l, 0, k, _ => by simp [List.getD]; omega
  | a :: l, i + 1, k, h => by
    have := sum_set_add l i k (Nat.lt_of_succ_lt_succ h)
    simp only [List.set, List.sum_cons, List.getD_cons_succ]
    omega

lemma getD_le_set_add : ∀ (l : List Nat) (i j k : Nat),
    l.getD j 0 ≤ (l.set i (l.getD i 0 + k)).getD j 0
  | [], _, _, _ => le_refl _
  | _ :: _, 0, 0, k => by simp [List.getD]
  | _ :: _, 0, _ + 1, _ => le_refl _
  | _ :: _, _ + 1, 0, _ => le_refl _
  | _ :: l, i + 1, j + 1, k => getD_le_set_add l i j k

lemma foldl_max_init_le : ∀ (l : List Nat) (b : Nat), b ≤ l.foldl max b
  | [], _ => le_refl _
  | a :: l, b => le_trans (le_max_left b a) (foldl_max_init_le l (max b a))

lemma le_foldl_max : ∀ (l : List Nat) (b a : Nat), a ∈ l → a ≤ l.foldl max b
  | [], _, _, h => absurd h (by simp)
  | c :: l, b, a, h => by
    rcases List.mem_cons.mp h with rfl | h'
    · exact le_trans (le_max_right b a) (foldl_max_init_le l (max b a))
    · exact le_foldl_max l (max b c) a h'

lemma getD_map_of_lt {α β : Type} (f : α → β) :
    ∀ (l : List α) (i : Nat) (d : β) (c : α), i < l.length →
      (l.map f).getD i d = f (l.getD i c)
  | [], i, _, _, h => absurd h (by simp)
  | _ :: _, 0, _, _, _ => rfl
  | _ :: l, i + 1, d, c, h => getD_map_of_lt f l i d c (Nat.lt_of_succ_lt_succ h)

lemma getD_range : ∀ (n i : Nat), i < n → (List.range n).getD i 0 = i := by
  intro n i h
  rw [List.getD_eq_getElem _ _ (by simpa using h)]
  simp

lemma getD_range_map {β : Type} (f : Nat → β) (n i : Nat) (d : β) (h : i < n) :
    ((List.range n).map f).getD i d = f i := by
  rw [getD_map_of_lt f (List.range n) i d 0 (by simpa using h), getD_range n i h]

/-- Lemma `List.min?_eq_some_iff` specialised to `Nat`. -/
lemma natMin?_eq_some_iff {a : Nat} {l : List Nat} :
    l.min? = some a ↔ a ∈ l ∧ ∀ b ∈ l, a ≤ b :=
  List.min?_eq_some_iff (fun x => le_refl x) (fun x y => min_choice x y)
    (fun _ _ _ => le_min_iff)

/-! ## Characterising the selection scans

The running-best scan `selectLoop` of the source is proved to pick exactly
"the lowest-index column attaining the highest key, provided it beats the
baseline" (`selectFirstBest`), which is how the specification words both
selection steps. -/

section Selection

variable {K : Type} [LinearOrder K] (key : Nat → Option K)

lemma selectLoop_of_all_le (l : List Nat) (c : Option Nat) (k : K)
    (h : ∀ j ∈ l, keyLeB key k j = true) : selectLoop key l (c, k) = (c, k) := by
  induction l with
  | nil => rfl
  | cons i t ih =>
    have hi := h i (List.mem_cons_self i t)
    unfold keyLeB at hi
    show selectLoop key t
      (match key i with
        | none => (c, k)
        | some k' => if (c, k).2 < k' then (some i, k') else (c, k)) = (c, k)
    cases hk : key i with
    | none => exact ih (fun j hj => h j (List.mem_cons_of_mem i hj))
    | some k' =>
      rw [hk] at hi
      have hle : k' ≤ k := of_decide_eq_true hi
      simp only [if_neg (not_lt.mpr hle)]
      exact ih (fun j hj => h j (List.mem_cons_of_mem i hj))

lemma exists_best_key (l : List Nat) (h : ∃ j ∈ l, (key j).isSome) :
    ∃ m ∈ l, ∃ kM, key m = some kM ∧ ∀ j ∈ l, keyLeB key kM j = true := by
  induction l with
  | nil => simp at h
  | cons i t ih =>
    cases hk : key i with
    | none =>
      have h' : ∃ j ∈ t, (key j).isSome := by
        rcases h with ⟨j, hj, hs⟩
        rcases List.mem_cons.mp hj with rfl | hj'
        · rw [hk] at hs; simp at hs
        · exact ⟨j, hj', hs⟩
      obtain ⟨m, hm, kM, hkM, hall⟩ := ih h'
      refine ⟨m, List.mem_cons_of_mem i hm, kM, hkM, fun j hj => ?_⟩
      rcases List.mem_cons.mp hj with rfl | hj'
      · unfold keyLeB; rw [hk]
      · exact hall j hj'
    | some k =>
      by_cases ht : ∃ j ∈ t, (key j).isSome
      · obtain ⟨m, hm, kM, hkM, hall⟩ := ih ht
        by_cases hkk : k ≤ kM
        · refine ⟨m, List.mem_cons_of_mem i hm, kM, hkM, fun j hj => ?_⟩
          rcases List.mem_cons.mp hj with rfl | hj'
          · unfold keyLeB; rw [hk]; simpa using hkk
          · exact hall j hj'
        · refine ⟨i, List.mem_cons_self i t, k, hk, fun j hj => ?_⟩
          rcases List.mem_cons.mp hj with rfl | hj'
          · unfold keyLeB; rw [hk]; simp
          · have := hall j hj'
            unfold keyLeB at this ⊢
            cases hkj : key j with
            | none => rfl
            | some k' =>
              rw [hkj] at this
              have : k' ≤ kM := of_decide_eq_true this
              simpa using le_trans this (le_of_not_le hkk)
      · refine ⟨i, List.mem_cons_self i t, k, hk, fun j hj => ?_⟩
        rcases List.mem_cons.mp hj with rfl | hj'
        · unfold keyLeB; rw [hk]; simp
        · unfold keyLeB
          cases hkj : key j with
          | none => rfl
          | some k' => exact absurd ⟨j, hj', by rw [hkj]; rfl⟩ ht

lemma bestPred_cons_of_none (b : K) (i : Nat) (t : List Nat) (hk : key i = none) :
    bestPred key b (i :: t) = bestPred key b t := by
  funext j
  unfold bestPred
  cases hkj : key j with
  | none => rfl
  | some k' =>
    have hi : keyLeB key k' i = true := by unfold keyLeB; rw [hk]
    simp [List.all_cons, hi]

lemma bestPred_cons_of_le (b : K) (i : Nat) (t : List Nat) (k : K)
    (hk : key i = some k) (hkb : k ≤ b) :
    bestPred key b (i :: t) = bestPred key b t := by
  funext j
  unfold bestPred
  cases hkj : key j with
  | none => rfl
  | some k' =>
    by_cases hb : b < k'
    · have hi : keyLeB key k' i = true := by
        unfold keyLeB; rw [hk]
        exact decide_eq_true (le_of_lt (lt_of_le_of_lt hkb hb))
      simp [List.all_cons, hi, hb]
    · simp [hb]

lemma bestPred_cons_of_found (i : Nat) (t : List Nat) (k₀ k : K)
    (hk : key i = some k) (hlt : k₀ < k)
    (jw : Nat) (kw : K) (hjw : jw ∈ t) (hkw : key jw = some kw) (hgt : k < kw) :
    bestPred key k₀ (i :: t) = bestPred key k t := by
  funext j
  unfold bestPred
  cases hkj : key j with
  | none => rfl
  | some k' =>
    by_cases hall : t.all (keyLeB key k') = true
    · have hk'w : kw ≤ k' := by
        have := List.all_eq_true.mp hall jw hjw
        unfold keyLeB at this; rw [hkw] at this
        exact of_decide_eq_true this
      have h1 : k < k' := lt_of_lt_of_le hgt hk'w
      have h2 : k₀ < k' := lt_trans hlt h1
      have h3 : keyLeB key k' i = true := by
        unfold keyLeB; rw [hk]; exact decide_eq_true (le_of_lt h1)
      simp [List.all_cons, hall, h1, h2, h3]
    · have hall' : t.all (keyLeB key k') = false := by
        simpa using hall
      simp [List.all_cons, hall']

/-- The source's running-best scan started at baseline `k₀` picks exactly the
spec's "lowest-index column attaining the highest key beating `k₀`" (keeping
the initial column when no column beats the baseline). -/
lemma selectLoop_fst (l : List Nat) (c₀ : Option Nat) (k₀ : K) :
    (selectLoop key l (c₀, k₀)).1 =
      ((selectFirstBest key k₀ l).map some).getD c₀ := by
  induction l generalizing c₀ k₀ with
  | nil => rfl
  | cons i t ih =>
    show (selectLoop key t
        (match key i with
          | none => (c₀, k₀)
          | some k => if (c₀, k₀).2 < k then (some i, k) else (c₀, k₀))).1 = _
    unfold selectFirstBest
    cases hk : key i with
    | none =>
      have hhead : bestPred key k₀ (i :: t) i = false := by
        unfold bestPred; rw [hk]
      rw [List.find?_cons_of_neg _ (by simp [hhead]),
        bestPred_cons_of_none key k₀ i t hk]
      exact ih c₀ k₀
    | some k =>
      by_cases hlt : k₀ < k
      · simp only [if_pos hlt]
        by_cases hβ : t.all (keyLeB key k) = true
        · -- the head is the global best: found by the spec, kept by the scan
          have hhead : bestPred key k₀ (i :: t) i = true := by
            unfold bestPred; rw [hk]
            have hii : keyLeB key k i = true := by
              unfold keyLeB; rw [hk]; simp
            simp [List.all_cons, hii, hβ, hlt]
          rw [List.find?_cons_of_pos _ hhead]
          have hstay := selectLoop_of_all_le key t (some i) k
            (List.all_eq_true.mp hβ)
          rw [hstay]
          rfl
        · -- some later column beats the head
          have hβf : t.all (keyLeB key k) = false := by simpa using hβ
          rcases List.all_eq_false.mp hβf with ⟨jw, hjw, hfw⟩
          have hfw' : keyLeB key k jw = false := by simpa using hfw
          obtain ⟨kw, hkw, hgt⟩ : ∃ kw, key jw = some kw ∧ k < kw := by
            unfold keyLeB at hfw'
            cases hkj : key jw with
            | none => rw [hkj] at hfw'; simp at hfw'
            | some kw =>
              rw [hkj] at hfw'
              exact ⟨kw, rfl, lt_of_not_le (of_decide_eq_false hfw')⟩
          have hhead : bestPred key k₀ (i :: t) i = false := by
            unfold bestPred; rw [hk]
            have hac : (i :: t).all (keyLeB key k) = false := by
              rw [List.all_cons, hβf]; exact Bool.and_false _
            simp [hac]
          rw [List.find?_cons_of_neg _ (by simp [hhead]),
            bestPred_cons_of_found key i t k₀ k hk hlt jw kw hjw hkw hgt]
          -- the spec search over `t` cannot fail: `t` holds a best key > k
          have hsome : ∃ j ∈ t, (key j).isSome := ⟨jw, hjw, by rw [hkw]; rfl⟩
          obtain ⟨m, hm, kM, hkM, hall⟩ := exists_best_key key t hsome
          have hkMw : kw ≤ kM := by
            have := hall jw hjw
            unfold keyLeB at this; rw [hkw] at this
            exact of_decide_eq_true this
          have hmPred : bestPred key k t m = true := by
            unfold bestPred; rw [hkM]
            have : k < kM := lt_of_lt_of_le hgt hkMw
            simp [this, List.all_eq_true.mpr hall]
          cases hf : t.find? (bestPred key k t) with
          | none =>
            exact absurd hmPred (by simpa using List.find?_eq_none.mp hf m hm)
          | some x =>
            rw [ih (some i) k]
            unfold selectFirstBest
            rw [hf]
            rfl
      · simp only [if_neg hlt]
        have hhead : bestPred key k₀ (i :: t) i = false := by
          unfold bestPred; rw [hk]
          simp [hlt]
        rw [List.find?_cons_of_neg _ (by simp [hhead]),
          bestPred_cons_of_le key k₀ i t k hk (le_of_not_lt hlt)]
        exact ih c₀ k₀

/-- What being selected means: the chosen column is in the list, offers a key
beating the baseline, and no listed column offers a larger key. -/
lemma selectFirstBest_spec (l : List Nat) (k₀ : K) (c : Nat)
    (h : selectFirstBest key k₀ l = some c) :
    c ∈ l ∧ ∃ k, key c = some k ∧ k₀ < k ∧ ∀ j ∈ l, keyLeB key k j = true := by
  refine ⟨List.mem_of_find?_eq_some h, ?_⟩
  have hp := List.find?_some h
  unfold bestPred at hp
  cases hk : key c with
  | none => rw [hk] at hp; simp at hp
  | some k =>
    rw [hk] at hp
    simp only [Bool.and_eq_true, decide_eq_true_eq] at hp
    exact ⟨k, rfl, hp.1, List.all_eq_true.mp hp.2⟩

end Selection

lemma map_some_getD_none (x : Option Nat) : (x.map some).getD none = x := by
  cases x <;> rfl

/-- The chars-objective scan picks the spec's first best column. -/
lemma pickBestChars_fst (allCW : List (List Nat)) (prios : List Int)
    (widths : List Nat) :
    (pickBestChars allCW prios widths).1 =
      selectFirstBest (fun i => some (benefitAt allCW prios widths i)) 0
        (List.range allCW.length) := by
  unfold pickBestChars
  rw [selectLoop_fst, map_some_getD_none]

lemma greedyCharsLoop_eq_spec (allCW : List (List Nat)) (prios : List Int) :
    ∀ (fuel : Nat) (widths : List Nat),
      greedyCharsLoop allCW prios fuel widths
        = greedyCharsSpecLoop allCW prios fuel widths := by
  intro fuel
  induction fuel with
  | zero => intro widths; rfl
  | succ n ih =>
    intro widths
    rw [greedyCharsLoop, greedyCharsSpecLoop, pickBestChars_fst]
    cases selectFirstBest (fun i => some (benefitAt allCW prios widths i)) 0
        (List.range allCW.length) with
    | none => rfl
    | some c => exact ih _

/-- A column the cells objective selects has a breakpoint, strictly above its
current width, whose cost is affordable. -/
lemma cellsKey_some_facts {allCW : List (List Nat)} {prios : List Int}
    {widths : List Nat} {budget : Int} {i : Nat} {k : Lex (ℚ × Int)}
    (h : cellsKey allCW prios widths budget i = some k) :
    ∃ nb, nextBreakpoint allCW widths i = some nb ∧ widths.getD i 0 < nb ∧
      (nb : Int) - (widths.getD i 0 : Int) ≤ budget := by
  unfold cellsKey at h
  cases hnb : nextBreakpoint allCW widths i with
  | none => rw [hnb] at h; simp at h
  | some nb =>
    rw [hnb] at h
    simp only at h
    by_cases hb : budget < (nb : Int) - (widths.getD i 0 : Int)
    · rw [if_pos hb] at h; simp at h
    · refine ⟨nb, rfl, ?_, le_of_not_lt hb⟩
      have hmem := (natMin?_eq_some_iff.mp hnb).1
      simpa using (List.mem_filter.mp hmem).2

lemma greedyCellsLoop_eq_spec (allCW : List (List Nat)) (prios : List Int) :
    ∀ (fuel : Nat) (widths : List Nat) (budget : Int),
      greedyCellsLoop allCW prios fuel widths budget
        = greedyCellsSpecLoop allCW prios fuel widths budget := by
  intro fuel
  induction fuel with
  | zero => intro widths budget; rfl
  | succ n ih =>
    intro widths budget
    rw [greedyCellsLoop, greedyCellsSpecLoop]
    by_cases hb : budget ≤ 0
    · rw [if_pos hb, if_pos hb]
    · rw [if_neg hb, if_neg hb]
      have hpick : (selectLoop (cellsKey allCW prios widths budget)
          (List.range allCW.length) (none, toLex (0, 0))).1
          = selectFirstBest (cellsKey allCW prios widths budget) (toLex (0, 0))
            (List.range allCW.length) := by
        rw [selectLoop_fst, map_some_getD_none]
      rw [hpick]
      cases hsel : selectFirstBest (cellsKey allCW prios widths budget)
          (toLex (0, 0)) (List.range allCW.length) with
      | none => rfl
      | some c =>
        obtain ⟨-, k, hkey, -, -⟩ := selectFirstBest_spec _ _ _ _ hsel
        obtain ⟨nb, hnb, hlt, -⟩ := cellsKey_some_facts hkey
        show greedyCellsLoop allCW prios n
            (widths.set c (widths.getD c 0 + (nextCost allCW widths c).toNat))
            (budget - nextCost allCW widths c)
          = match nextBreakpoint allCW widths c with
            | none => widths
            | some nb' => greedyCellsSpecLoop allCW prios n (widths.set c nb')
                (budget - ((nb' : Int) - (widths.getD c 0 : Int)))
        have hcost : nextCost allCW widths c
            = (nb : Int) - (widths.getD c 0 : Int) := by
          unfold nextCost; rw [hnb]
        rw [hnb, hcost]
        have harg : widths.getD c 0
            + ((nb : Int) - (widths.getD c 0 : Int)).toNat = nb := by omega
        rw [harg]
        exact ih _ _

/-- C1. For every table and every positive remaining budget, the
"chars"-objective allocator starts from the minimum widths and, at each step,
computes for every column `benefit = (abbreviated cells, header included) ×
priority`, increments by one the width of the single column with the highest
benefit (ties broken by lowest column index), and stops when the budget is
exhausted or the best benefit is 0 (proved as: the source-translated
allocator equals the spec-worded one for *all* inputs); in particular, for
two columns of minimum width 4, A with priority 10 and five cells of length
10, B with priority 1 and five cells of length 10, and a budget of 10 units
(available = 18 over minimum sum 8), the resulting widths are [10, 8]. -/
theorem charsAllocatorMatchesSpec :
    (∀ (t : AutoTable) (available : Int) (minW : List Nat),
      optimizeGreedyChars t available minW = optimizeGreedyCharsSpec t available minW)
    ∧ minWidths tChars = [4, 4]
    ∧ (18 : Int) - ((minWidths tChars).sum : Int) = 10
    ∧ optimizeGreedyChars tChars 18 (minWidths tChars) = [10, 8] := by
  refine ⟨fun t available minW => ?_, by decide, by decide, by decide⟩
  simp only [optimizeGreedyChars, optimizeGreedyCharsSpec]
  split_ifs with h
  · rfl
  · exact greedyCharsLoop_eq_spec _ _ _ _

/-- C2. For every table and every budget, the "cells"-objective allocator
behaves as the spec describes: per column it finds the next breakpoint (the
smallest cell length exceeding the current width), its cost (breakpoint −
current width, skipping columns whose cost exceeds the remaining budget) and
its benefit (cells exactly at the breakpoint × priority); it picks the column
with the highest benefit/cost ratio (ties: higher benefit, then lowest
index), jumps that column's width to the breakpoint deducting the cost, and
when nothing is affordable or beneficial spreads the remaining budget one
unit at a time round-robin over the columns that still have a truncated
cell, then stops.  Proved as: the source-translated allocator equals the
spec-worded one for all inputs. -/
theorem cellsAllocatorMatchesSpec :
    ∀ (t : AutoTable) (available : Int) (minW : List Nat),
      optimizeGreedyCells t available minW = optimizeGreedyCellsSpec t available minW := by
  intro t available minW
  simp only [optimizeGreedyCells, optimizeGreedyCellsSpec]
  split_ifs with h
  · rfl
  · exact greedyCellsLoop_eq_spec _ _ _ _ _

/-! ## Preservation lemmas for the distribution and allocation loops -/

lemma sum_set_add_le : ∀ (l : List Nat) (i k : Nat),
    (l.set i (l.getD i 0 + k)).sum ≤ l.sum + k
  | [], _, _ => by simp
  | a :: l, 0, k => by simp [List.getD]; omega
  | a :: l, i + 1, k => by
    have := sum_set_add_le l i k
    simp only [List.set, List.sum_cons, List.getD_cons_succ]
    omega

lemma getD_mem_of_lt : ∀ (l : List Nat) (n : Nat), n < l.length → l.getD n 0 ∈ l
  | [], _, h => absurd h (by simp)
  | a :: _, 0, _ => List.mem_cons_self a _
  | _ :: l, n + 1, h =>
    List.mem_cons_of_mem _ (getD_mem_of_lt l n (Nat.lt_of_succ_lt_succ h))

lemma length_roundRobinFrom : ∀ (w : List Nat) (i k : Nat),
    (roundRobinFrom w i k).length = w.length
  | _, _, 0 => rfl
  | w, i, k + 1 => by
    rw [roundRobinFrom, length_roundRobinFrom _ _ k, List.length_set]

lemma getD_le_roundRobinFrom : ∀ (w : List Nat) (i k j : Nat),
    w.getD j 0 ≤ (roundRobinFrom w i k).getD j 0
  | _, _, 0, _ => le_refl _
  | w, i, k + 1, j =>
    le_trans (getD_le_set_add w (i % w.length) j 1)
      (getD_le_roundRobinFrom _ (i + 1) k j)

lemma sum_roundRobinFrom : ∀ (w : List Nat) (i k : Nat), 0 < w.length →
    (roundRobinFrom w i k).sum = w.sum + k
  | _, _, 0, _ => rfl
  | w, i, k + 1, h => by
    rw [roundRobinFrom,
      sum_roundRobinFrom _ (i + 1) k (by rw [List.length_set]; exact h),
      sum_set_add w (i % w.length) 1 (Nat.mod_lt i h)]
    omega

lemma length_rrOverCols (abbr : List Nat) : ∀ (w : List Nat) (i k : Nat),
    (rrOverCols abbr w i k).length = w.length
  | _, _, 0 => rfl
  | w, i, k + 1 => by
    rw [rrOverCols, length_rrOverCols abbr _ _ k, List.length_set]

lemma getD_le_rrOverCols (abbr : List Nat) : ∀ (w : List Nat) (i k j : Nat),
    w.getD j 0 ≤ (rrOverCols abbr w i k).getD j 0
  | _, _, 0, _ => le_refl _
  | w, i, k + 1, j =>
    le_trans (getD_le_set_add w (abbr.getD (i % abbr.length) 0) j 1)
      (getD_le_rrOverCols abbr _ (i + 1) k j)

lemma sum_rrOverCols (abbr : List Nat) : ∀ (w : List Nat) (i k : Nat),
    abbr ≠ [] → (∀ c ∈ abbr, c < w.length) →
    (rrOverCols abbr w i k).sum = w.sum + k
  | _, _, 0, _, _ => rfl
  | w, i, k + 1, hne, hlt => by
    have hmem : abbr.getD (i % abbr.length) 0 ∈ abbr :=
      getD_mem_of_lt abbr _ (Nat.mod_lt i (List.length_pos.mpr hne))
    have hc : abbr.getD (i % abbr.length) 0 < w.length := hlt _ hmem
    rw [rrOverCols,
      sum_rrOverCols abbr _ (i + 1) k hne
        (fun c hcm => by rw [List.length_set]; exact hlt c hcm),
      sum_set_add w _ 1 hc]
    omega

lemma length_greedyCharsLoop (allCW : List (List Nat)) (prios : List Int) :
    ∀ (fuel : Nat) (w : List Nat),
    (greedyCharsLoop allCW prios fuel w).length = w.length
  | 0, _ => rfl
  | fuel + 1, w => by
    rw [greedyCharsLoop]
    cases (pickBestChars allCW prios w).1 with
    | none => rfl
    | some c =>
      rw [length_greedyCharsLoop allCW prios fuel _, List.length_set]

lemma getD_le_greedyCharsLoop (allCW : List (List Nat)) (prios : List Int) :
    ∀ (fuel : Nat) (w : List Nat) (j : Nat),
    w.getD j 0 ≤ (greedyCharsLoop allCW prios fuel w).getD j 0
  | 0, _, _ => le_refl _
  | fuel + 1, w, j => by
    rw [greedyCharsLoop]
    cases (pickBestChars allCW prios w).1 with
    | none => exact le_refl _
    | some c =>
      exact le_trans (getD_le_set_add w c j 1)
        (getD_le_greedyCharsLoop allCW prios fuel _ j)

lemma sum_greedyCharsLoop_le (allCW : List (List Nat)) (prios : List Int) :
    ∀ (fuel : Nat) (w : List Nat),
    (greedyCharsLoop allCW prios fuel w).sum ≤ w.sum + fuel
  | 0, _ => Nat.le_add_right _ 0
  | fuel + 1, w => by
    rw [greedyCharsLoop]
    cases (pickBestChars allCW prios w).1 with
    | none =>
      show w.sum ≤ w.sum + (fuel + 1)
      omega
    | some c =>
      show (greedyCharsLoop allCW prios fuel (w.set c (w.getD c 0 + 1))).sum
        ≤ w.sum + (fuel + 1)
      have h1 := sum_greedyCharsLoop_le allCW prios fuel
        (w.set c (w.getD c 0 + 1))
      have h2 := sum_set_add_le w c 1
      omega

lemma length_greedyCellsLoop (allCW : List (List Nat)) (prios : List Int) :
    ∀ (fuel : Nat) (w : List Nat) (b : Int),
    (greedyCellsLoop allCW prios fuel w b).length = w.length
  | 0, _, _ => rfl
  | fuel + 1, w, b => by
    rw [greedyCellsLoop]
    by_cases hb : b ≤ 0
    · rw [if_pos hb]
    · rw [if_neg hb]
      cases (selectLoop (cellsKey allCW prios w b) (List.range allCW.length)
          (none, toLex (0, 0))).1 with
      | none =>
        by_cases he : ((List.range allCW.length).filter
            (fun i => (allCW.getD i []).any (fun v => w.getD i 0 < v))).isEmpty
        · simp only [if_pos he]
        · simp only [if_neg he]
          exact length_rrOverCols _ _ _ _
      | some c =>
        rw [length_greedyCellsLoop allCW prios fuel _ _, List.length_set]

lemma getD_le_greedyCellsLoop (allCW : List (List Nat)) (prios : List Int) :
    ∀ (fuel : Nat) (w : List Nat) (b : Int) (j : Nat),
    w.getD j 0 ≤ (greedyCellsLoop allCW prios fuel w b).getD j 0
  | 0, _, _, _ => le_refl _
  | fuel + 1, w, b, j => by
    rw [greedyCellsLoop]
    by_cases hb : b ≤ 0
    · rw [if_pos hb]
    · rw [if_neg hb]
      cases (selectLoop (cellsKey allCW prios w b) (List.range allCW.length)
          (none, toLex (0, 0))).1 with
      | none =>
        by_cases he : ((List.range allCW.length).filter
            (fun i => (allCW.getD i []).any (fun v => w.getD i 0 < v))).isEmpty
        · simp only [if_pos he]
          exact le_refl _
        · simp only [if_neg he]
          exact getD_le_rrOverCols _ _ _ _ _
      | some c =>
        exact le_trans (getD_le_set_add w c j _)
          (getD_le_greedyCellsLoop allCW prios fuel _ _ j)

/-- Translating a code-side selection into the spec-side one. -/
lemma selectLoop_eq_some {K : Type} [LinearOrder K] (key : Nat → Option K)
    (l : List Nat) (k₀ : K) (c : Nat)
    (h : (selectLoop key l (none, k₀)).1 = some c) :
    selectFirstBest key k₀ l = some c := by
  have heq := selectLoop_fst key l none k₀
  rw [map_some_getD_none] at heq
  rw [← heq]
  exact h

/-- The cells loop never spends more than its budget. -/
lemma sum_greedyCellsLoop_le (allCW : List (List Nat)) (prios : List Int) :
    ∀ (fuel : Nat) (w : List Nat) (b : Int), w.length = allCW.length → 0 ≤ b →
    ((greedyCellsLoop allCW prios fuel w b).sum : Int) ≤ (w.sum : Int) + b := by
  intro fuel
  induction fuel with
  | zero =>
    intro w b _ hb
    show ((w.sum : Nat) : Int) ≤ (w.sum : Int) + b
    omega
  | succ n ih =>
    intro w b hlen hb
    rw [greedyCellsLoop]
    by_cases hb0 : b ≤ 0
    · rw [if_pos hb0]; omega
    · rw [if_neg hb0]
      cases hsel : (selectLoop (cellsKey allCW prios w b) (List.range allCW.length)
          (none, toLex (0, 0))).1 with
      | none =>
        by_cases he : ((List.range allCW.length).filter
            (fun i => (allCW.getD i []).any (fun v => w.getD i 0 < v))).isEmpty
        · simp only [if_pos he]; omega
        · simp only [if_neg he]
          have hne : (List.range allCW.length).filter
              (fun i => (allCW.getD i []).any (fun v => w.getD i 0 < v)) ≠ [] := by
            simpa [List.isEmpty_iff] using he
          have hval : ∀ c ∈ (List.range allCW.length).filter
              (fun i => (allCW.getD i []).any (fun v => w.getD i 0 < v)),
              c < w.length := by
            intro c hc
            have := (List.mem_filter.mp hc).1
            rw [hlen]
            exact List.mem_range.mp this
          rw [sum_rrOverCols _ _ _ _ hne hval]
          omega
      | some c =>
        obtain ⟨hcmem, k, hkey, -, -⟩ :=
          selectFirstBest_spec _ _ _ _ (selectLoop_eq_some _ _ _ _ hsel)
        obtain ⟨nb, hnb, hltnb, hcost_le⟩ := cellsKey_some_facts hkey
        have hclen : c < w.length := by
          rw [hlen]; exact List.mem_range.mp hcmem
        have hcost : nextCost allCW w c = (nb : Int) - (w.getD c 0 : Int) := by
          unfold nextCost; rw [hnb]
        show ((greedyCellsLoop allCW prios n
            (w.set c (w.getD c 0 + (nextCost allCW w c).toNat))
            (b - nextCost allCW w c)).sum : Int) ≤ (w.sum : Int) + b
        have hlen' : (w.set c (w.getD c 0 + (nextCost allCW w c).toNat)).length
            = allCW.length := by rw [List.length_set]; exact hlen
        have hb' : 0 ≤ b - nextCost allCW w c := by rw [hcost]; omega
        have hrec := ih _ _ hlen' hb'
        rw [sum_set_add w c ((nextCost allCW w c).toNat) hclen] at hrec
        rw [hcost] at hrec ⊢
        omega

/-- C10. For every table whose sum of minimum widths is at most the
available content width, both greedy allocators return widths summing to at
most that available width: the constrained allocation never overspends its
budget, under either objective, including the cells objective's round-robin
distribution of the leftover budget. -/
theorem allocatorsRespectBudget (t : AutoTable) (available : Int)
    (h : ((minWidths t).sum : Int) ≤ available) :
    ((optimizeGreedyChars t available (minWidths t)).sum : Int) ≤ available
    ∧ ((optimizeGreedyCells t available (minWidths t)).sum : Int) ≤ available := by
  have hlen : (minWidths t).length = (allCellWidths t).length := by
    simp [minWidths, allCellWidths]
  constructor
  · simp only [optimizeGreedyChars]
    split_ifs with hb
    · exact h
    · have h1 := sum_greedyCharsLoop_le (allCellWidths t) (priorities t)
        (available - ((minWidths t).sum : Int)).toNat (minWidths t)
      omega
  · simp only [optimizeGreedyCells]
    split_ifs with hb
    · exact h
    · have h1 := sum_greedyCellsLoop_le (allCellWidths t) (priorities t)
        (available - ((minWidths t).sum : Int)).toNat (minWidths t)
        (available - ((minWidths t).sum : Int)) hlen (by omega)
      omega

/-- Witness for `allocatorsRespectBudget` at `tChars` with 18 columns of
available content width. -/
theorem allocatorsRespectBudget_witness :
    ((minWidths tChars).sum : Int) ≤ 18
    ∧ ((optimizeGreedyChars tChars 18 (minWidths tChars)).sum : Int) ≤ 18
    ∧ ((optimizeGreedyCells tChars 18 (minWidths tChars)).sum : Int) ≤ 18 :=
  ⟨by decide, (allocatorsRespectBudget tChars 18 (by decide)).1,
    (allocatorsRespectBudget tChars 18 (by decide)).2⟩

/-! ## Layout path lemmas -/

lemma length_idealWidths (t : AutoTable) :
    (idealWidths t).length = t.columns.length := by
  simp [idealWidths]

lemma length_minWidths (t : AutoTable) :
    (minWidths t).length = t.columns.length := by
  simp [minWidths]

lemma header_le_idealWidths (t : AutoTable) (i : Nat) (h : i < t.columns.length) :
    cellLen (t.columns.getD i dummyColumn).header ≤ (idealWidths t).getD i 0 := by
  rw [idealWidths, getD_range_map _ _ _ _ h]
  exact le_foldl_max _ 0 _ (List.mem_cons_self _ _)

lemma cell_le_idealWidths (t : AutoTable) (i : Nat) (h : i < t.columns.length)
    (w : Nat) (hw : w ∈ getCellWidths t i) : w ≤ (idealWidths t).getD i 0 := by
  rw [idealWidths, getD_range_map _ _ _ _ h]
  exact le_foldl_max _ 0 _ hw

lemma header_le_minWidths (t : AutoTable) (i : Nat) (h : i < t.columns.length) :
    cellLen (t.columns.getD i dummyColumn).header ≤ (minWidths t).getD i 0 := by
  rw [minWidths, getD_map_of_lt _ _ _ _ dummyColumn h]
  exact le_max_right _ _

lemma minCol_le_minWidths (t : AutoTable) (i : Nat) (h : i < t.columns.length) :
    t.minColWidth ≤ (minWidths t).getD i 0 := by
  rw [minWidths, getD_map_of_lt _ _ _ _ dummyColumn h]
  exact le_max_left _ _

lemma length_optimizeGreedyChars (t : AutoTable) (a : Int) (m : List Nat) :
    (optimizeGreedyChars t a m).length = m.length := by
  simp only [optimizeGreedyChars]
  split_ifs
  · rfl
  · exact length_greedyCharsLoop _ _ _ _

lemma getD_le_optimizeGreedyChars (t : AutoTable) (a : Int) (m : List Nat) (j : Nat) :
    m.getD j 0 ≤ (optimizeGreedyChars t a m).getD j 0 := by
  simp only [optimizeGreedyChars]
  split_ifs
  · exact le_refl _
  · exact getD_le_greedyCharsLoop _ _ _ _ _

lemma length_optimizeGreedyCells (t : AutoTable) (a : Int) (m : List Nat) :
    (optimizeGreedyCells t a m).length = m.length := by
  simp only [optimizeGreedyCells]
  split_ifs
  · rfl
  · exact length_greedyCellsLoop _ _ _ _ _

lemma getD_le_optimizeGreedyCells (t : AutoTable) (a : Int) (m : List Nat) (j : Nat) :
    m.getD j 0 ≤ (optimizeGreedyCells t a m).getD j 0 := by
  simp only [optimizeGreedyCells]
  split_ifs
  · exact le_refl _
  · exact getD_le_greedyCellsLoop _ _ _ _ _ _

lemma length_fitOrAllocate (t : AutoTable) (afc : Int) :
    (fitOrAllocate t afc).length = t.columns.length := by
  simp only [fitOrAllocate]
  split_ifs
  · rw [length_roundRobinFrom, length_idealWidths]
  · exact length_idealWidths t
  · rw [length_optimizeGreedyChars, length_minWidths]
  · rw [length_optimizeGreedyCells, length_minWidths]

lemma ideal_le_fitOrAllocate (t : AutoTable) (afc : Int)
    (hfit : ((idealWidths t).sum : Int) ≤ afc) (j : Nat) :
    (idealWidths t).getD j 0 ≤ (fitOrAllocate t afc).getD j 0 := by
  simp only [fitOrAllocate, if_pos hfit]
  split_ifs
  · exact getD_le_roundRobinFrom _ _ _ _
  · exact le_refl _

lemma min_le_fitOrAllocate (t : AutoTable) (afc : Int)
    (hover : ¬ ((idealWidths t).sum : Int) ≤ afc) (j : Nat) :
    (minWidths t).getD j 0 ≤ (fitOrAllocate t afc).getD j 0 := by
  simp only [fitOrAllocate, if_neg hover]
  split_ifs
  · exact getD_le_optimizeGreedyChars _ _ _ _
  · exact getD_le_optimizeGreedyCells _ _ _ _

lemma header_le_fitOrAllocate (t : AutoTable) (afc : Int) (i : Nat)
    (h : i < t.columns.length) :
    cellLen (t.columns.getD i dummyColumn).header ≤ (fitOrAllocate t afc).getD i 0 := by
  by_cases hfit : ((idealWidths t).sum : Int) ≤ afc
  · exact le_trans (header_le_idealWidths t i h) (ideal_le_fitOrAllocate t afc hfit i)
  · exact le_trans (header_le_minWidths t i h) (min_le_fitOrAllocate t afc hfit i)

/-- C4. For every table, every width mode and every console width, the
layout returns exactly one width per column, and every column's final width
is at least its header's character length: headers are never truncated, even
when the table overflows the target width. -/
theorem layoutProtectsHeaders (t : AutoTable) (consoleWidth : Int) :
    (calculateLayout t consoleWidth).length = t.columns.length
    ∧ ∀ i, i < t.columns.length →
      cellLen (t.columns.getD i dummyColumn).header
        ≤ (calculateLayout t consoleWidth).getD i 0 := by
  unfold calculateLayout
  by_cases hn : t.columns.length = 0
  · rw [if_pos hn]
    exact ⟨hn.symm, fun i hi => absurd hi (by omega)⟩
  · rw [if_neg hn]
    cases hm : t.widthMode with
    | pack =>
      split_ifs with hp
      · exact ⟨length_idealWidths t, fun i hi => header_le_idealWidths t i hi⟩
      · exact ⟨length_fitOrAllocate t _,
          fun i hi => header_le_fitOrAllocate t _ i hi⟩
    | fill =>
      exact ⟨length_fitOrAllocate t _,
        fun i hi => header_le_fitOrAllocate t _ i hi⟩
    | fixed w =>
      exact ⟨length_fitOrAllocate t _,
        fun i hi => header_le_fitOrAllocate t _ i hi⟩

/-- Witness for `layoutProtectsHeaders`: the two-column fit example table at
console width 20, instantiated at column 1 (header "Value"). -/
theorem layoutProtectsHeaders_witness :
    (calculateLayout tFit 20).length = tFit.columns.length
    ∧ cellLen (tFit.columns.getD 1 dummyColumn).header
      ≤ (calculateLayout tFit 20).getD 1 0 :=
  ⟨(layoutProtectsHeaders tFit 20).1,
    (layoutProtectsHeaders tFit 20).2 1 (by decide)⟩

lemma availableForContent_of_pack (t : AutoTable) (cw : Int)
    (hm : t.widthMode = .pack) :
    availableForContent t cw = cw - chromeWidth t t.columns.length := by
  simp [availableForContent, availableTotal, hm]

/-- C7, amended. `min_col_width` is a floor on every column whenever the
constrained allocation path runs (the ideal content does not fit): then every
final width is at least `min_col_width`.  (In the unconstrained fit path the
ideal widths are used, which are at least the header lengths but can be
smaller than `min_col_width` — see the counterexample.) -/
theorem minColWidthFloorConstrained (t : AutoTable) (consoleWidth : Int)
    (hover : availableForContent t consoleWidth < ((idealWidths t).sum : Int)) :
    ∀ i, i < t.columns.length →
      t.minColWidth ≤ (calculateLayout t consoleWidth).getD i 0 := by
  intro i hi
  unfold calculateLayout
  rw [if_neg (by omega : ¬ t.columns.length = 0)]
  cases hm : t.widthMode with
  | pack =>
    have hafc := availableForContent_of_pack t consoleWidth hm
    rw [hafc] at hover
    rw [if_neg (by omega :
      ¬ ((idealWidths t).sum : Int) + chromeWidth t t.columns.length ≤ consoleWidth)]
    exact le_trans (minCol_le_minWidths t i hi)
      (min_le_fitOrAllocate t _ (by omega) i)
  | fill =>
    exact le_trans (minCol_le_minWidths t i hi)
      (min_le_fitOrAllocate t _ (by omega) i)
  | fixed w =>
    exact le_trans (minCol_le_minWidths t i hi)
      (min_le_fitOrAllocate t _ (by omega) i)

/-- Witness for `minColWidthFloorConstrained`: `tMin5b` (ideal width 10,
available content width 3) keeps its single column at the 4-unit floor. -/
theorem minColWidthFloorConstrained_witness :
    availableForContent tMin5b 80 < ((idealWidths tMin5b).sum : Int)
    ∧ tMin5b.minColWidth ≤ (calculateLayout tMin5b 80).getD 0 0 :=
  ⟨by decide, minColWidthFloorConstrained tMin5b 80 (by decide) 0 (by decide)⟩

/-- C7 counterexample. In pack mode with a short header ("ID", length 2)
and no cells, the packed layout returns the ideal width 2, strictly below
the configured `min_col_width = 4`: the floor does *not* apply to every
column in every mode. -/
theorem minColWidthFloor_cex :
    tPack7.minColWidth = 4
    ∧ calculateLayout tPack7 80 = [2]
    ∧ ¬ tPack7.minColWidth ≤ (calculateLayout tPack7 80).getD 0 0 := by
  decide

/-- C3, amended. For every table *with at least one column* whose total
ideal width fits the available content width, no measured cell (header
included) is abbreviated, and in fill mode the slack is distributed one unit
at a time round-robin from column 0, so the widths sum exactly to
`available_for_content`; in particular the spec example with ideal widths
[2, 10] and available content width 13 yields [3, 10]. -/
theorem fitPathDistribution (t : AutoTable) (consoleWidth : Int)
    (hn : 0 < t.columns.length)
    (hfit : ((idealWidths t).sum : Int) ≤ availableForContent t consoleWidth) :
    (∀ i, i < t.columns.length → ∀ w ∈ getCellWidths t i,
        w ≤ (calculateLayout t consoleWidth).getD i 0)
    ∧ (t.widthMode = .fill →
        ((calculateLayout t consoleWidth).sum : Int)
          = availableForContent t consoleWidth)
    ∧ calculateLayout tFit 20 = [3, 10] := by
  refine ⟨?_, ?_, by decide⟩
  · intro i hi w hw
    unfold calculateLayout
    rw [if_neg (by omega : ¬ t.columns.length = 0)]
    cases hm : t.widthMode with
    | pack =>
      have hafc := availableForContent_of_pack t consoleWidth hm
      rw [hafc] at hfit
      rw [if_pos (by omega :
        ((idealWidths t).sum : Int) + chromeWidth t t.columns.length ≤ consoleWidth)]
      exact cell_le_idealWidths t i hi w hw
    | fill =>
      exact le_trans (cell_le_idealWidths t i hi w hw)
        (ideal_le_fitOrAllocate t _ hfit i)
    | fixed v =>
      exact le_trans (cell_le_idealWidths t i hi w hw)
        (ideal_le_fitOrAllocate t _ hfit i)
  · intro hm
    unfold calculateLayout
    rw [if_neg (by omega : ¬ t.columns.length = 0)]
    rw [hm]
    show ((fitOrAllocate t (availableForContent t consoleWidth)).sum : Int) = _
    simp only [fitOrAllocate, if_pos hfit]
    by_cases hs : ((idealWidths t).sum : Int) < availableForContent t consoleWidth
    · rw [if_pos ⟨hm, hs⟩]
      rw [sum_roundRobinFrom _ _ _ (by rw [length_idealWidths]; exact hn)]
      omega
    · rw [if_neg (by intro hc; exact hs hc.2)]
      omega

/-- Witness for `fitPathDistribution` at the spec's own fit example. -/
theorem fitPathDistribution_witness :
    0 < tFit.columns.length
    ∧ ((idealWidths tFit).sum : Int) ≤ availableForContent tFit 20
    ∧ ((calculateLayout tFit 20).sum : Int) = availableForContent tFit 20 :=
  ⟨by decide, by decide,
    (fitPathDistribution tFit 20 (by decide) (by decide)).2.1 rfl⟩

/-- C3 counterexample. The claim fails for the zero-column table: in fill
mode its ideal total 0 fits `available_for_content = 12` (console width 13,
chrome 1), yet the returned width list is empty and sums to 0, not 12. -/
theorem fitPathDistribution_cex :
    tEmpty.widthMode = .fill
    ∧ ((idealWidths tEmpty).sum : Int) ≤ availableForContent tEmpty 13
    ∧ calculateLayout tEmpty 13 = []
    ∧ ((calculateLayout tEmpty 13).sum : Int) ≠ availableForContent tEmpty 13 := by
  decide

lemma optimizeGreedyChars_of_nonpos (t : AutoTable) (a : Int) (m : List Nat)
    (h : a - (m.sum : Int) ≤ 0) : optimizeGreedyChars t a m = m := by
  simp only [optimizeGreedyChars]
  rw [if_pos h]

lemma optimizeGreedyCells_of_nonpos (t : AutoTable) (a : Int) (m : List Nat)
    (h : a - (m.sum : Int) ≤ 0) : optimizeGreedyCells t a m = m := by
  simp only [optimizeGreedyCells]
  rw [if_pos h]

lemma fitOrAllocate_degenerate (t : AutoTable) (afc : Int)
    (hover : ¬ ((idealWidths t).sum : Int) ≤ afc)
    (hmin : afc < ((minWidths t).sum : Int)) :
    fitOrAllocate t afc = minWidths t := by
  simp only [fitOrAllocate, if_neg hover]
  split_ifs
  · exact optimizeGreedyChars_of_nonpos t afc (minWidths t) (by omega)
  · exact optimizeGreedyCells_of_nonpos t afc (minWidths t) (by omega)

/-- C5, amended. For every table whose ideal content width *and* minimum
content width both exceed `available_for_content` (so the allocation path
runs with a non-positive budget), the layout returns the minimum widths
(`max(min_col_width, header length)` per column) exactly, without failing,
and the rendered total `Σ min_width + chrome` exceeds the requested total
width by precisely the shortfall `Σ min_width − available_for_content`.
(When the ideal widths do fit, the fit path returns them even if
`Σ min_width > available_for_content` — see the counterexample.) -/
theorem degenerateOverflowReturnsMin (t : AutoTable) (consoleWidth : Int)
    (hover : availableForContent t consoleWidth < ((idealWidths t).sum : Int))
    (hmin : availableForContent t consoleWidth < ((minWidths t).sum : Int)) :
    calculateLayout t consoleWidth = minWidths t
    ∧ ((minWidths t).sum : Int) + chromeWidth t t.columns.length
      = availableTotal t consoleWidth
        + (((minWidths t).sum : Int) - availableForContent t consoleWidth) := by
  constructor
  · unfold calculateLayout
    by_cases hn : t.columns.length = 0
    · rw [if_pos hn]
      have hcols : t.columns = [] := List.length_eq_zero.mp hn
      simp [minWidths, hcols]
    · rw [if_neg hn]
      cases hm : t.widthMode with
      | pack =>
        have hafc := availableForContent_of_pack t consoleWidth hm
        rw [hafc] at hover hmin
        rw [if_neg (by omega :
          ¬ ((idealWidths t).sum : Int) + chromeWidth t t.columns.length ≤ consoleWidth)]
        exact fitOrAllocate_degenerate t _ (by omega) (by omega)
      | fill => exact fitOrAllocate_degenerate t _ (by omega) (by omega)
      | fixed w => exact fitOrAllocate_degenerate t _ (by omega) (by omega)
  · unfold availableForContent
    omega

/-- Witness for `degenerateOverflowReturnsMin`: `tMin5b` (fixed total width
7, chrome 4, ideal width 10, minimum width 4) returns `[4]`. -/
theorem degenerateOverflowReturnsMin_witness :
    availableForContent tMin5b 80 < ((idealWidths tMin5b).sum : Int)
    ∧ availableForContent tMin5b 80 < ((minWidths tMin5b).sum : Int)
    ∧ calculateLayout tMin5b 80 = minWidths tMin5b :=
  ⟨by decide, by decide,
    (degenerateOverflowReturnsMin tMin5b 80 (by decide) (by decide)).1⟩

/-- C5 counterexample. `tMin5`: one column, header "ID", no rows, fixed
total width 7, so `available_for_content = 3 < 4 = Σ min_width`; but the
ideal width is only 2, the fit path runs, and the layout returns `[2]`, not
the minimum widths `[4]` the claim promises. -/
theorem degenerateOverflow_cex :
    availableForContent tMin5 80 < ((minWidths tMin5).sum : Int)
    ∧ calculateLayout tMin5 80 = [2]
    ∧ minWidths tMin5 = [4]
    ∧ calculateLayout tMin5 80 ≠ minWidths tMin5 := by
  decide

/-- C6. Two layout computations on identical inputs produce identical
width lists, whatever the state of the random number generator: the layout
path of table.py never consults `random` (its only consumer,
`_optimize_widths`, is unreachable from `_calculate_layout`), so the
threaded random state passes through unchanged and the widths depend only on
the table and the console width. -/
theorem layoutDeterministic :
    ∀ (t : AutoTable) (consoleWidth : Int) (r1 r2 : RandomState),
      (calculateLayoutWithRandom t consoleWidth r1).1
        = (calculateLayoutWithRandom t consoleWidth r2).1
      ∧ (calculateLayoutWithRandom t consoleWidth r1).2 = r1 :=
  fun _ _ _ _ => ⟨rfl, rfl⟩

/-! ## Priority monotonicity (C9) -/

lemma getD_set_add_ub : ∀ (l : List Nat) (i k : Nat),
    (l.set i (l.getD i 0 + k)).getD i 0 ≤ l.getD i 0 + k
  | [], _, _ => by simp [List.getD]
  | _ :: _, 0, _ => le_refl _
  | _ :: l, i + 1, k => getD_set_add_ub l i k

lemma getD_allCellWidths (t : AutoTable) (i : Nat) (h : i < t.columns.length) :
    (allCellWidths t).getD i [] = getCellWidths t i := by
  rw [allCellWidths, getD_range_map _ _ _ _ h]

lemma getD_priorities (t : AutoTable) (i : Nat) (h : i < t.columns.length) :
    (priorities t).getD i 0 = (t.columns.getD i dummyColumn).priority := by
  rw [priorities, getD_map_of_lt _ _ _ _ dummyColumn h]

/-- What a chars-objective selection implies: the chosen column's benefit is
positive and no column in range offers a larger one. -/
lemma pickBestChars_spec (allCW : List (List Nat)) (prios : List Int)
    (w : List Nat) (c : Nat)
    (h : (pickBestChars allCW prios w).1 = some c) :
    0 < benefitAt allCW prios w c
    ∧ ∀ j, j < allCW.length →
        benefitAt allCW prios w j ≤ benefitAt allCW prios w c := by
  have hfb := selectLoop_eq_some (fun i => some (benefitAt allCW prios w i))
    (List.range allCW.length) 0 c h
  obtain ⟨hcmem, k, hkey, hpos, hall⟩ := selectFirstBest_spec _ _ _ _ hfb
  have hbc : benefitAt allCW prios w c = k := by injection hkey
  refine ⟨by rw [hbc]; exact hpos, fun j hj => ?_⟩
  have hj' := hall j (List.mem_range.mpr hj)
  have hle : benefitAt allCW prios w j ≤ k := of_decide_eq_true hj'
  rw [hbc]
  exact hle

/-- The pairwise invariant of the chars loop: with identical cell-width
lists and a strictly larger priority on column `iA`, column `iB` never
overtakes column `iA` (at equal widths the two benefits differ exactly by
the priority factor, so `iB` can only be selected while strictly behind). -/
lemma charsLoop_pair_mono (allCW : List (List Nat)) (prios : List Int)
    (iA iB : Nat) (hA : iA < allCW.length) (hB : iB < allCW.length)
    (hne : iA ≠ iB) (hcw : allCW.getD iA [] = allCW.getD iB [])
    (hp : prios.getD iB 0 < prios.getD iA 0) :
    ∀ (fuel : Nat) (w : List Nat), w.getD iB 0 ≤ w.getD iA 0 →
      (greedyCharsLoop allCW prios fuel w).getD iB 0
        ≤ (greedyCharsLoop allCW prios fuel w).getD iA 0 := by
  intro fuel
  induction fuel with
  | zero => intro w hw; exact hw
  | succ n ih =>
    intro w hw
    rw [greedyCharsLoop]
    cases hsel : (pickBestChars allCW prios w).1 with
    | none => exact hw
    | some c =>
      apply ih
      by_cases hcb : c = iB
      · subst hcb
        have hfacts := pickBestChars_spec allCW prios w c hsel
        have hstrict : w.getD c 0 < w.getD iA 0 := by
          rcases lt_or_eq_of_le hw with hlt | heq
          · exact hlt
          · exfalso
            have hbenB : benefitAt allCW prios w c
                = ((allCW.getD c []).countP (fun v => w.getD c 0 < v) : Int)
                  * prios.getD c 0 := rfl
            have hbenA : benefitAt allCW prios w iA
                = ((allCW.getD c []).countP (fun v => w.getD c 0 < v) : Int)
                  * prios.getD iA 0 := by
              unfold benefitAt
              rw [hcw, heq]
            have hpos := hfacts.1
            have hle := hfacts.2 iA hA
            rw [hbenA] at hle
            rw [hbenB] at hpos hle
            rcases mul_pos_iff.mp hpos with ⟨h1, h2⟩ | ⟨h1, _⟩
            · have := mul_lt_mul_of_pos_left hp h1
              linarith
            · exact absurd h1 (not_lt.mpr (Int.natCast_nonneg _))
        calc (w.set c (w.getD c 0 + 1)).getD c 0
            ≤ w.getD c 0 + 1 := getD_set_add_ub w c 1
          _ ≤ w.getD iA 0 := hstrict
          _ = (w.set c (w.getD c 0 + 1)).getD iA 0 :=
              (getD_set_ne w c iA _ (fun hca => hne (hca ▸ rfl))).symm
      · calc (w.set c (w.getD c 0 + 1)).getD iB 0
            = w.getD iB 0 := getD_set_ne w c iB _ hcb
          _ ≤ w.getD iA 0 := hw
          _ ≤ (w.set c (w.getD c 0 + 1)).getD iA 0 := getD_le_set_add w c iA 1

/-- C9, amended. For every table containing two columns with identical
cell-width lists (header included) and priority A strictly greater than
priority B, the **chars-objective** allocator ends with column A at least as
wide as column B, for every available width — at equal widths A's benefit
strictly exceeds B's, so B is only ever widened while strictly behind A.
(The claim fails for the cells objective: its round-robin fallback can push
a lower-indexed B one unit past A — see the counterexample.) -/
theorem priorityMonotonicityChars (t : AutoTable) (available : Int)
    (iA iB : Nat) (hA : iA < t.columns.length) (hB : iB < t.columns.length)
    (hne : iA ≠ iB) (hcw : getCellWidths t iA = getCellWidths t iB)
    (hp : (t.columns.getD iB dummyColumn).priority
      < (t.columns.getD iA dummyColumn).priority) :
    (optimizeGreedyChars t available (minWidths t)).getD iB 0
      ≤ (optimizeGreedyChars t available (minWidths t)).getD iA 0 := by
  have hhead : cellLen (t.columns.getD iA dummyColumn).header
      = cellLen (t.columns.getD iB dummyColumn).header := by
    have h' := hcw
    unfold getCellWidths at h'
    injection h'
  have hstart : (minWidths t).getD iB 0 ≤ (minWidths t).getD iA 0 := by
    rw [minWidths, getD_map_of_lt _ _ _ _ dummyColumn hA,
      getD_map_of_lt _ _ _ _ dummyColumn hB, hhead]
  simp only [optimizeGreedyChars]
  split_ifs with hb
  · exact hstart
  · exact charsLoop_pair_mono (allCellWidths t) (priorities t) iA iB
      (by simpa [allCellWidths] using hA) (by simpa [allCellWidths] using hB) hne
      (by rw [getD_allCellWidths t iA hA, getD_allCellWidths t iB hB]; exact hcw)
      (by rw [getD_priorities t iA hA, getD_priorities t iB hB]; exact hp)
      _ _ hstart

/-- Witness for `priorityMonotonicityChars` at the spec's chars example
(column A = index 0, priority 10; column B = index 1, priority 1). -/
theorem priorityMonotonicityChars_witness :
    getCellWidths tChars 0 = getCellWidths tChars 1
    ∧ (tChars.columns.getD 1 dummyColumn).priority
      < (tChars.columns.getD 0 dummyColumn).priority
    ∧ (optimizeGreedyChars tChars 18 (minWidths tChars)).getD 1 0
      ≤ (optimizeGreedyChars tChars 18 (minWidths tChars)).getD 0 0 :=
  ⟨by decide, by decide,
    priorityMonotonicityChars tChars 18 0 1 (by decide) (by decide)
      (by decide) (by decide) (by decide)⟩

/-- C9 counterexample. `tCells9` has two columns with identical
cell-width lists `[1, 6, 100]`, priority A = 2 at index 1, priority B = 1 at
index 0.  With available width 13 (budget 5, far too small to unabbreviate
either 100-wide cell) the cells-objective allocator jumps A to 6, then B to
6, then — no jump affordable — hands the leftover unit to the round-robin
fallback, which serves the lower index first: the final widths are [7, 6],
so the *lower*-priority column B ends strictly wider than A. -/
theorem priorityMonotonicityCells_cex :
    getCellWidths tCells9 0 = getCellWidths tCells9 1
    ∧ (tCells9.columns.getD 0 dummyColumn).priority
      < (tCells9.columns.getD 1 dummyColumn).priority
    ∧ optimizeGreedyCells tCells9 13 (minWidths tCells9) = [7, 6]
    ∧ ((getCellWidths tCells9 0).any (fun v => 7 < v)
        ∧ (getCellWidths tCells9 1).any (fun v => 6 < v))
    ∧ ¬ (optimizeGreedyCells tCells9 13 (minWidths tCells9)).getD 0 0
        ≤ (optimizeGreedyCells tCells9 13 (minWidths tCells9)).getD 1 0 := by
  decide

/-! ## Short rows (C8) -/

lemma renderCellSegments_right_independent (t : AutoTable) (bx bx' : BoxChars)
    (numWidths : Nat) (isHeader : Bool) (i : Nat) (cell : String) (width : Nat)
    (hHV : bx.headVertical = bx'.headVertical)
    (hMV : bx.midVertical = bx'.midVertical) (hi : i < numWidths - 1) :
    renderCellSegments t (some bx) numWidths isHeader i cell width
      = renderCellSegments t (some bx') numWidths isHeader i cell width := by
  simp only [renderCellSegments, if_pos hi, hHV, hMV]

lemma renderCells_right_independent (t : AutoTable) (bx bx' : BoxChars)
    (numWidths : Nat) (isHeader : Bool)
    (hHV : bx.headVertical = bx'.headVertical)
    (hMV : bx.midVertical = bx'.midVertical) :
    ∀ (pairs : List (String × Nat)) (i : Nat), i + pairs.length ≤ numWidths - 1 →
      renderCells t (some bx) numWidths isHeader i pairs
        = renderCells t (some bx') numWidths isHeader i pairs := by
  intro pairs
  induction pairs with
  | nil => intro i _; rfl
  | cons p rest ih =>
    intro i hb
    obtain ⟨cell, width⟩ := p
    show renderCellSegments t (some bx) numWidths isHeader i cell width
        ++ renderCells t (some bx) numWidths isHeader (i + 1) rest
      = renderCellSegments t (some bx') numWidths isHeader i cell width
        ++ renderCells t (some bx') numWidths isHeader (i + 1) rest
    simp only [List.length_cons] at hb
    have hi : i < numWidths - 1 := by omega
    rw [renderCellSegments_right_independent t bx bx' numWidths isHeader i cell
      width hHV hMV hi, ih (i + 1) (by omega)]

/-- C8, amended. A row with fewer cells than columns still measures
correctly (a column beyond every row's length measures only its header — a
missing cell contributes nothing, equivalently width 0) and still renders as
a single line ending in a newline segment; but rendering iterates over
`zip(cells, widths)`, so the trailing columns are dropped: no blank cell and
no right border is emitted — the output does not depend on the box style's
right-border glyphs at all. -/
theorem shortRowRendering (t : AutoTable) (bx bx' : BoxChars)
    (cells : List String) (widths : List Nat) (isHeader : Bool)
    (hHL : bx.headLeft = bx'.headLeft) (hML : bx.midLeft = bx'.midLeft)
    (hHV : bx.headVertical = bx'.headVertical)
    (hMV : bx.midVertical = bx'.midVertical)
    (hshort : cells.length < widths.length) :
    renderRow t (some bx) cells widths isHeader
      = renderRow t (some bx') cells widths isHeader
    ∧ (renderRow t (some bx) cells widths isHeader).getLast? = some "\n"
    ∧ ∀ (t' : AutoTable) (i : Nat), (∀ row ∈ t'.rows, row.length ≤ i) →
        getCellWidths t' i = [cellLen (t'.columns.getD i dummyColumn).header] := by
  refine ⟨?_, ?_, ?_⟩
  · have hleft : (if isHeader then bx.headLeft else bx.midLeft)
        = (if isHeader then bx'.headLeft else bx'.midLeft) := by
      cases isHeader <;> simp [hHL, hML]
    have hcells : renderCells t (some bx) widths.length isHeader 0 (cells.zip widths)
        = renderCells t (some bx') widths.length isHeader 0 (cells.zip widths) := by
      apply renderCells_right_independent t bx bx' widths.length isHeader hHV hMV
      rw [List.length_zip]
      omega
    show [if isHeader then bx.headLeft else bx.midLeft]
        ++ renderCells t (some bx) widths.length isHeader 0 (cells.zip widths)
        ++ ["\n"]
      = [if isHeader then bx'.headLeft else bx'.midLeft]
        ++ renderCells t (some bx') widths.length isHeader 0 (cells.zip widths)
        ++ ["\n"]
    rw [hleft, hcells]
  · show (([if isHeader then bx.headLeft else bx.midLeft]
        ++ renderCells t (some bx) widths.length isHeader 0 (cells.zip widths))
        ++ ["\n"]).getLast? = some "\n"
    exact List.getLast?_concat _
  · intro t' i hrows
    unfold getCellWidths
    rw [List.filterMap_eq_nil_iff.mpr]
    intro row hrow
    rw [List.get?_eq_none.mpr (hrows row hrow)]
    rfl

/-- Witness for `shortRowRendering`: the three-column table `tShort8` with a
two-cell row at widths `[3, 3, 3]`. -/
theorem shortRowRendering_witness :
    renderRow tShort8 (some bx8) ["a", "b"] [3, 3, 3] false
      = renderRow tShort8 (some bx8') ["a", "b"] [3, 3, 3] false
    ∧ (renderRow tShort8 (some bx8) ["a", "b"] [3, 3, 3] false).getLast?
      = some "\n" :=
  ⟨(shortRowRendering tShort8 bx8 bx8' ["a", "b"] [3, 3, 3] false rfl rfl rfl rfl
      (by decide)).1,
    (shortRowRendering tShort8 bx8 bx8' ["a", "b"] [3, 3, 3] false rfl rfl rfl rfl
      (by decide)).2.1⟩

/-- C8 counterexample. For the three-column table `tShort8` and the
two-cell row `["a", "b"]` at widths `[3, 3, 3]` with border glyphs
left "L", separator "S", right "R", the rendered segments are exactly those
of *two* column positions followed by a separator and the newline — the
third column position, its blank cell, and the right border "R" never
appear, contradicting the claim that the full set of column positions,
separators, and the right border still appears. -/
theorem shortRowRendering_cex :
    renderRow tShort8 (some bx8) ["a", "b"] [3, 3, 3] false
      = ["L", " ", "a", "  ", " ", "S", " ", "b", "  ", " ", "S", "\n"]
    ∧ bx8.midRight = "R"
    ∧ "R" ∉ renderRow tShort8 (some bx8) ["a", "b"] [3, 3, 3] false := by
  decide

end Gitoverit
